import Mathlib

attribute [local semireducible] Rat.add Rat.mul Rat.inv Rat.sub

/-!
Verification of the fuzzy depression-risk assessment system
(`src/app.py`) against its specification.

The source file configures a Mamdani fuzzy inference system: four input
variables (`mood`, `energy`, `appetite`, `social`), one output variable
(`risk`), triangular membership functions, and a nine-rule base, delegating
the inference pipeline itself (fuzzification, rule firing, implication,
aggregation, centroid defuzzification) to an external fuzzy-control
library.  The configuration below is embedded from `src/app.py`; the
engine, which is not part of the repository's source, is modelled from the
specification's algorithm description (sections 4.1-4.5).

Membership degrees and crisp values are rationals; all universes in the
source are integer-stepped `arange` grids, so every quantity in the
pipeline is an exact rational.
-/

/-- A triangular membership-function descriptor with parameters (a, b, c). -/
structure Tri where
  a : ℚ
  b : ℚ
  c : ℚ
deriving DecidableEq, Repr

/-- Well-formedness of a triangular shape: a ≤ b ≤ c.  The spec makes the
violation a configuration-time `InvalidShapeError`. -/
def Tri.valid (t : Tri) : Prop := t.a ≤ t.b ∧ t.b ≤ t.c

instance (t : Tri) : Decidable t.valid := by unfold Tri.valid; infer_instance

/-- Modelled from the spec: the triangular membership function of §4.1
(the source obtains it from the external library's `trimf`).  Degree 0
outside [a, c], linear ramp from 0 at a to 1 at b, linear ramp from 1 at b
down to 0 at c; the value at b is 1, so degenerate shapes with a = b or
b = c are step-like shoulders and no division by zero occurs. -/
def trimf (t : Tri) (x : ℚ) : ℚ :=
  if x < t.a then 0
  else if t.c < x then 0
  else if x = t.b then 1
  else if x < t.b then (x - t.a) / (t.b - t.a)
  else (t.c - x) / (t.c - t.b)

/-- A linguistic variable: a name, a discrete sampled universe, and named
triangular terms (§3, LinguisticVariable). -/
structure LinguisticVariable where
  name : String
  univ : List ℚ
  terms : List (String × Tri)
deriving DecidableEq, Repr

/-- Look up a term's shape on a variable. -/
def LinguisticVariable.shape (v : LinguisticVariable) (t : String) : Option Tri :=
  v.terms.lookup t

/-- A clause (variable name, term name), used as antecedent atom and as a
rule's consequent (§3, Clause). -/
structure Clause where
  var : String
  term : String
deriving DecidableEq, Repr

/-- A rule: a conjunction of antecedent clauses, one consequent clause and
a weight defaulting to 1 (§3, Rule). -/
structure Rule where
  antecedents : List Clause
  consequent : Clause
  weight : ℚ := 1
deriving DecidableEq, Repr

/-- The linguistic variable registry: input and output variables (§4.2). -/
structure Registry where
  inputs : List LinguisticVariable
  outputs : List LinguisticVariable
deriving DecidableEq, Repr

/-- Find an input variable by name. -/
def Registry.findInput (reg : Registry) (n : String) : Option LinguisticVariable :=
  reg.inputs.find? (fun v => v.name == n)

/-- Registry validity: every term shape of every variable is a valid
triangle.  The spec enforces this at configuration time
(`InvalidShapeError`), so evaluation may assume it. -/
def Registry.valid (reg : Registry) : Prop :=
  ∀ v ∈ reg.inputs ++ reg.outputs, ∀ p ∈ v.terms, p.2.valid

instance (reg : Registry) : Decidable reg.valid := by
  unfold Registry.valid; infer_instance

/-- Modelled from the spec: fuzzification of one antecedent clause (§4.4
step 1) — the degree of membership of the crisp input in the clause's
term.  Unknown variables or terms are configuration-time errors in the
spec (`UnknownVariableError`/`UnknownTermError`), so a validated system
never reaches those branches; they yield degree 0 here. -/
def Registry.clauseDegree (reg : Registry) (inputs : String → ℚ) (c : Clause) : ℚ :=
  match reg.findInput c.var with
  | none => 0
  | some v =>
    match v.shape c.term with
    | none => 0
    | some t => trimf t (inputs c.var)

/-- Modelled from the spec: a rule's firing strength (§4.4 step 2) — the
fuzzy-AND (minimum) of the antecedent clause degrees, times the rule's
weight.  The fold starts at 1, the unit of min on [0,1]. -/
def Rule.firing (reg : Registry) (inputs : String → ℚ) (r : Rule) : ℚ :=
  r.weight * (r.antecedents.map (reg.clauseDegree inputs)).foldr min 1

/-- Modelled from the spec: implication by clipping (§4.4 step 3) — the
rule's contribution to its consequent term at sample point x is the
pointwise minimum of the term's shape and the firing strength. -/
def ruleClip (reg : Registry) (inputs : String → ℚ) (v : LinguisticVariable)
    (r : Rule) (x : ℚ) : ℚ :=
  match v.shape r.consequent.term with
  | none => 0
  | some t => min (trimf t x) (r.firing reg inputs)

/-- Modelled from the spec: the inference engine's aggregation loop (§4.4
step 4), in the operational form an implementation uses — iterate over the
rule list, max-combining each rule's clipped contribution into an
accumulator initialised to the all-zero membership function over the
output variable's universe. -/
def evalAgg (reg : Registry) (inputs : String → ℚ) (rules : List Rule)
    (v : LinguisticVariable) : List ℚ :=
  rules.foldl
    (fun acc r =>
      if r.consequent.var == v.name then
        List.zipWith max acc (v.univ.map (ruleClip reg inputs v r))
      else acc)
    (v.univ.map (fun _ => 0))

/-- The aggregation formula as the specification words it: at each sample
point, the maximum over all rules whose consequent targets the variable of
the clipped contribution, with max over the empty set equal to 0. -/
def aggFormula (reg : Registry) (inputs : String → ℚ) (rules : List Rule)
    (v : LinguisticVariable) (x : ℚ) : ℚ :=
  ((rules.filter (fun r => r.consequent.var == v.name)).map
    (fun r => ruleClip reg inputs v r x)).foldr max 0

/-- Evaluation-time failures of the defuzzifier (§7). -/
inductive DefuzzError where
  | emptyAggregate
deriving DecidableEq, Repr

/-- Modelled from the spec: centroid-of-area defuzzification (§4.5), in
the single-pass form an implementation uses — accumulate ∑ x·μ(x) and
∑ μ(x) over the universe's sample points and return their ratio, failing
with `EmptyAggregateError` when the aggregate's total is zero. -/
def defuzzStep (acc : ℚ × ℚ) (xm : ℚ × ℚ) : ℚ × ℚ :=
  (acc.1 + xm.1 * xm.2, acc.2 + xm.2)

/-- One pass over the paired sample points and membership values,
accumulating (∑ x·μ(x), ∑ μ(x)). -/
def defuzzPass (l : List (ℚ × ℚ)) : ℚ × ℚ :=
  l.foldl defuzzStep ((0 : ℚ), (0 : ℚ))

def defuzzify (xs : List ℚ) (mu : List ℚ) : Except DefuzzError ℚ :=
  if (defuzzPass (List.zip xs mu)).2 = 0 then .error .emptyAggregate
  else .ok ((defuzzPass (List.zip xs mu)).1 / (defuzzPass (List.zip xs mu)).2)

/-! ## The concrete configuration of `src/app.py` -/

/-- The integer grid `np.arange(lo, lo+n, 1)` as rationals: n points
starting at lo with step 1. -/
def arange (lo : ℤ) (n : ℕ) : List ℚ :=
  (List.range n).map (fun i => (lo : ℚ) + (i : ℚ))

/-- Input variable `mood` of `create_depression_risk_system`
(src/app.py lines 11, 20-22). -/
def moodVar : LinguisticVariable :=
  { name := "mood", univ := arange 0 11,
    terms := [("low", ⟨0, 0, 5⟩), ("medium", ⟨3, 5, 7⟩), ("high", ⟨5, 10, 10⟩)] }

/-- Input variable `energy` (src/app.py lines 12, 24-26). -/
def energyVar : LinguisticVariable :=
  { name := "energy", univ := arange 0 11,
    terms := [("low", ⟨0, 0, 5⟩), ("medium", ⟨3, 5, 7⟩), ("high", ⟨5, 10, 10⟩)] }

/-- Input variable `appetite` (src/app.py lines 13, 28-30). -/
def appetiteVar : LinguisticVariable :=
  { name := "appetite", univ := arange (-5) 11,
    terms := [("decreased", ⟨-5, -5, 0⟩), ("normal", ⟨-2, 0, 2⟩),
              ("increased", ⟨0, 5, 5⟩)] }

/-- Input variable `social` (src/app.py lines 14, 32-34). -/
def socialVar : LinguisticVariable :=
  { name := "social", univ := arange 0 11,
    terms := [("low", ⟨0, 0, 5⟩), ("medium", ⟨3, 5, 7⟩), ("high", ⟨5, 10, 10⟩)] }

/-- Output variable `risk` (src/app.py lines 17, 36-38). -/
def riskVar : LinguisticVariable :=
  { name := "risk", univ := arange 0 101,
    terms := [("low", ⟨0, 0, 40⟩), ("medium", ⟨30, 50, 70⟩),
              ("high", ⟨60, 100, 100⟩)] }

/-- The registry of the depression-risk system. -/
def depressionReg : Registry :=
  { inputs := [moodVar, energyVar, appetiteVar, socialVar],
    outputs := [riskVar] }

/-- The nine-rule base of `create_depression_risk_system`
(src/app.py lines 41-49), in source order. -/
def depressionRules : List Rule :=
  [ { antecedents := [⟨"mood", "low"⟩, ⟨"energy", "low"⟩, ⟨"social", "low"⟩],
      consequent := ⟨"risk", "high"⟩ },
    { antecedents := [⟨"mood", "low"⟩, ⟨"energy", "low"⟩, ⟨"appetite", "decreased"⟩],
      consequent := ⟨"risk", "high"⟩ },
    { antecedents := [⟨"mood", "medium"⟩, ⟨"energy", "medium"⟩, ⟨"social", "medium"⟩],
      consequent := ⟨"risk", "medium"⟩ },
    { antecedents := [⟨"mood", "high"⟩, ⟨"energy", "high"⟩, ⟨"social", "high"⟩],
      consequent := ⟨"risk", "low"⟩ },
    { antecedents := [⟨"mood", "low"⟩, ⟨"social", "low"⟩],
      consequent := ⟨"risk", "high"⟩ },
    { antecedents := [⟨"energy", "low"⟩, ⟨"appetite", "decreased"⟩],
      consequent := ⟨"risk", "high"⟩ },
    { antecedents := [⟨"mood", "medium"⟩, ⟨"energy", "medium"⟩, ⟨"appetite", "normal"⟩],
      consequent := ⟨"risk", "medium"⟩ },
    { antecedents := [⟨"social", "medium"⟩, ⟨"appetite", "normal"⟩, ⟨"mood", "medium"⟩],
      consequent := ⟨"risk", "medium"⟩ },
    { antecedents := [⟨"mood", "high"⟩, ⟨"energy", "medium"⟩, ⟨"social", "medium"⟩],
      consequent := ⟨"risk", "low"⟩ } ]

/-- The spec's end-to-end reference instance (§8): a single input `mood`,
the output `risk`, and the one rule mood=low → risk=high. -/
def refReg : Registry := { inputs := [moodVar], outputs := [riskVar] }

/-- The single rule of the reference instance. -/
def refRule : Rule :=
  { antecedents := [⟨"mood", "low"⟩], consequent := ⟨"risk", "high"⟩ }

/-- Run the whole pipeline of the depression system for crisp inputs:
aggregate over the risk universe, then defuzzify. -/
def depressionScore (inputs : String → ℚ) : Except DefuzzError ℚ :=
  defuzzify riskVar.univ (evalAgg depressionReg inputs depressionRules riskVar)

/-- Decidable equality of defuzzification results, so concrete runs of the
pipeline can be checked by evaluation. -/
instance : DecidableEq (Except DefuzzError ℚ) := fun a b =>
  match a, b with
  | .ok x, .ok y =>
    if h : x = y then .isTrue (by rw [h]) else .isFalse (fun hc => by cases hc; exact h rfl)
  | .error x, .error y =>
    if h : x = y then .isTrue (by rw [h]) else .isFalse (fun hc => by cases hc; exact h rfl)
  | .ok _, .error _ => .isFalse (fun hc => by cases hc)
  | .error _, .ok _ => .isFalse (fun hc => by cases hc)

/-- The per-call evaluation context (§3, EvaluationContext): the
configuration it was created from, the crisp input values, and the output
slot filled by `compute` — the shape of the source's
`ControlSystemSimulation` (src/app.py lines 54, 131-141). -/
structure Simulation where
  reg : Registry
  rules : List Rule
  inputVals : String → ℚ
  output : Option (Except DefuzzError ℚ) := none

/-- Modelled from the spec: one full inference pass for one output
variable (src/app.py line 140, `depression_sim.compute()`) — aggregate the
rules over the output universe, defuzzify, and store the result in the
context's output slot. -/
def Simulation.compute (s : Simulation) (v : LinguisticVariable) : Simulation :=
  { s with output := some (defuzzify v.univ (evalAgg s.reg s.inputVals s.rules v)) }

/-- A crisp input assignment inside every declared universe on which all
nine rules of the source's rule base have firing strength zero:
mood=10, energy=0, appetite=5, social=10. -/
def gapInputs : String → ℚ := fun n =>
  if n == "mood" then 10
  else if n == "energy" then 0
  else if n == "appetite" then 5
  else 10

/-- A crisp input assignment on which several rules fire fully:
mood=0, energy=0, appetite=-5, social=0. -/
def firedInputs : String → ℚ := fun n => if n == "appetite" then -5 else 0

/-! ## Properties of the triangular membership function -/

theorem trimf_of_lt_a (t : Tri) (x : ℚ) (h : x < t.a) : trimf t x = 0 := by
  unfold trimf; rw [if_pos h]

theorem trimf_of_gt_c (t : Tri) (hv : t.valid) (x : ℚ) (h : t.c < x) : trimf t x = 0 := by
  unfold trimf
  have : ¬ x < t.a := by
    have := hv.1; have := hv.2; push_neg; linarith
  rw [if_neg this, if_pos h]

theorem trimf_at_peak (t : Tri) (hv : t.valid) : trimf t t.b = 1 := by
  unfold trimf
  rw [if_neg (not_lt.2 hv.1), if_neg (not_lt.2 hv.2), if_pos rfl]

theorem trimf_nonneg (t : Tri) (_hv : t.valid) (x : ℚ) : 0 ≤ trimf t x := by
  unfold trimf
  split_ifs with h1 h2 h3 h4
  · exact le_refl 0
  · exact le_refl 0
  · exact zero_le_one
  · have ha : t.a ≤ x := not_lt.1 h1
    exact div_nonneg (by linarith) (by linarith)
  · have hb : t.b < x := lt_of_le_of_ne (not_lt.1 h4) (Ne.symm h3)
    have hc : x ≤ t.c := not_lt.1 h2
    exact div_nonneg (by linarith) (by linarith)

theorem trimf_le_one (t : Tri) (_hv : t.valid) (x : ℚ) : trimf t x ≤ 1 := by
  unfold trimf
  split_ifs with h1 h2 h3 h4
  · exact zero_le_one
  · exact zero_le_one
  · exact le_refl 1
  · have ha : t.a ≤ x := not_lt.1 h1
    have hb : t.a < t.b := lt_of_le_of_lt ha h4
    rw [div_le_one (by linarith)]; linarith
  · have hb : t.b < x := lt_of_le_of_ne (not_lt.1 h4) (Ne.symm h3)
    have hc : x ≤ t.c := not_lt.1 h2
    rw [div_le_one (by linarith)]; linarith

theorem trimf_mono_up (t : Tri) (hv : t.valid) (x y : ℚ)
    (hax : t.a ≤ x) (hxy : x ≤ y) (hyb : y ≤ t.b) : trimf t x ≤ trimf t y := by
  rcases eq_or_lt_of_le hyb with hyb' | hyb'
  · rw [hyb', trimf_at_peak t hv]; exact trimf_le_one t hv x
  · have hxb : x < t.b := lt_of_le_of_lt hxy hyb'
    have hab : t.a < t.b := lt_of_le_of_lt hax hxb
    have hx : trimf t x = (x - t.a) / (t.b - t.a) := by
      unfold trimf
      rw [if_neg (not_lt.2 hax), if_neg (not_lt.2 (le_trans (le_of_lt hxb) hv.2)),
        if_neg (ne_of_lt hxb), if_pos hxb]
    have hy : trimf t y = (y - t.a) / (t.b - t.a) := by
      unfold trimf
      rw [if_neg (not_lt.2 (le_trans hax hxy)),
        if_neg (not_lt.2 (le_trans (le_of_lt hyb') hv.2)),
        if_neg (ne_of_lt hyb'), if_pos hyb']
    rw [hx, hy]
    gcongr
    linarith

theorem trimf_mono_down (t : Tri) (hv : t.valid) (x y : ℚ)
    (hbx : t.b ≤ x) (hxy : x ≤ y) (hyc : y ≤ t.c) : trimf t y ≤ trimf t x := by
  rcases eq_or_lt_of_le hbx with hbx' | hbx'
  · rw [← hbx', trimf_at_peak t hv]; exact trimf_le_one t hv y
  · have hby : t.b < y := lt_of_lt_of_le hbx' hxy
    have hbc : t.b < t.c := lt_of_lt_of_le hby hyc
    have hx : trimf t x = (t.c - x) / (t.c - t.b) := by
      unfold trimf
      rw [if_neg (not_lt.2 (le_trans hv.1 (le_of_lt hbx'))),
        if_neg (not_lt.2 (le_trans hxy hyc)),
        if_neg (Ne.symm (ne_of_lt hbx')), if_neg (not_lt.2 (le_of_lt hbx'))]
    have hy : trimf t y = (t.c - y) / (t.c - t.b) := by
      unfold trimf
      rw [if_neg (not_lt.2 (le_trans hv.1 (le_of_lt hby))),
        if_neg (not_lt.2 hyc),
        if_neg (Ne.symm (ne_of_lt hby)), if_neg (not_lt.2 (le_of_lt hby))]
    rw [hx, hy]
    gcongr
    linarith

/-- **C3**: for every triangular membership function with parameters
(a, b, c) satisfying a ≤ b ≤ c and every point x: the degree is 0 for
x < a or x > c, the degree at b is 1, the degree lies in [0,1] everywhere,
and the function is monotonically non-decreasing on [a, b] and
non-increasing on [b, c]; the degenerate cases a = b and b = c are covered
by the same statement (the ramps become step-like shoulders) and evaluate
without division by zero. -/
theorem trimf_spec (t : Tri) (hv : t.valid) :
    (∀ x : ℚ, x < t.a ∨ t.c < x → trimf t x = 0) ∧
    trimf t t.b = 1 ∧
    (∀ x : ℚ, 0 ≤ trimf t x ∧ trimf t x ≤ 1) ∧
    (∀ x y : ℚ, t.a ≤ x → x ≤ y → y ≤ t.b → trimf t x ≤ trimf t y) ∧
    (∀ x y : ℚ, t.b ≤ x → x ≤ y → y ≤ t.c → trimf t y ≤ trimf t x) := by
  refine ⟨fun x h => ?_, trimf_at_peak t hv,
    fun x => ⟨trimf_nonneg t hv x, trimf_le_one t hv x⟩,
    trimf_mono_up t hv, trimf_mono_down t hv⟩
  rcases h with h | h
  · exact trimf_of_lt_a t x h
  · exact trimf_of_gt_c t hv x h

/-- Witness for C3 at the degenerate left-shoulder shape (0, 0, 5) used by
`mood['low']`: peak value 1 at b = 0, zero beyond c, and the descending
ramp is antitone. -/
theorem trimf_spec_witness :
    trimf ⟨0, 0, 5⟩ 0 = 1 ∧ trimf ⟨0, 0, 5⟩ 7 = 0 ∧
      trimf ⟨0, 0, 5⟩ 2 ≤ trimf ⟨0, 0, 5⟩ 1 :=
  ⟨(trimf_spec ⟨0, 0, 5⟩ (by decide)).2.1,
   (trimf_spec ⟨0, 0, 5⟩ (by decide)).1 7 (Or.inr (by norm_num)),
   (trimf_spec ⟨0, 0, 5⟩ (by decide)).2.2.2.2 1 2 (by norm_num) (by norm_num)
     (by norm_num)⟩

/-! ## Folding lemmas for min and max -/

theorem foldr_max_shift (a b : ℚ) (l : List ℚ) :
    l.foldr max (max b a) = max a (l.foldr max b) := by
  induction l with
  | nil => exact max_comm b a
  | cons x xs ih => simpa [List.foldr, ih] using max_left_comm x a (xs.foldr max b)

theorem foldr_max_zero_of_all_zero (l : List ℚ) (h : ∀ x ∈ l, x = 0) :
    l.foldr max 0 = 0 := by
  induction l with
  | nil => rfl
  | cons x xs ih =>
    have hx := h x (List.mem_cons_self x xs)
    have hxs := ih (fun y hy => h y (List.mem_cons_of_mem x hy))
    simp [List.foldr, hx, hxs]

theorem foldr_max_perm (l₁ l₂ : List ℚ) (h : l₁.Perm l₂) (b : ℚ) :
    l₁.foldr max b = l₂.foldr max b :=
  h.foldr_eq' (fun x _ y _ c => max_left_comm y x c) b

theorem foldr_min_le_one (l : List ℚ) : l.foldr min 1 ≤ 1 := by
  induction l with
  | nil => exact le_refl 1
  | cons x xs ih => exact le_trans (min_le_right x _) ih

theorem foldr_min_nonneg (l : List ℚ) (h : ∀ x ∈ l, 0 ≤ x) : 0 ≤ l.foldr min 1 := by
  induction l with
  | nil => exact zero_le_one
  | cons x xs ih =>
    exact le_min (h x (List.mem_cons_self x xs))
      (ih (fun y hy => h y (List.mem_cons_of_mem x hy)))

theorem foldr_min_shift (l : List ℚ) (d : ℚ) (hd : d ≤ 1)
    (hl : ∀ x ∈ l, x ≤ 1) : min d (l.foldr min 1) = l.foldr min d := by
  induction l with
  | nil => exact min_eq_left hd
  | cons x xs ih =>
    have hxs := ih (fun y hy => hl y (List.mem_cons_of_mem x hy))
    calc min d ((x :: xs).foldr min 1) = min d (min x (xs.foldr min 1)) := rfl
    _ = min x (min d (xs.foldr min 1)) := min_left_comm d x _
    _ = min x (xs.foldr min d) := by rw [hxs]
    _ = (x :: xs).foldr min d := rfl

/-! ## Aggregation: the operational fold equals the spec's max formula -/

theorem shape_valid (reg : Registry) (v : LinguisticVariable) (hv : reg.valid)
    (hmem : v ∈ reg.inputs ++ reg.outputs) (n : String) (t : Tri)
    (hs : v.shape n = some t) : t.valid := by
  unfold LinguisticVariable.shape at hs
  obtain ⟨l₁, l₂, he, -⟩ := List.lookup_eq_some_iff.1 hs
  refine hv v hmem (n, t) ?_
  rw [he]
  exact List.mem_append_right _ (List.mem_cons_self _ _)

theorem evalAgg_foldl_eq (reg : Registry) (inputs : String → ℚ)
    (v : LinguisticVariable) (rules : List Rule) :
    ∀ h : ℚ → ℚ,
      rules.foldl
        (fun acc r =>
          if r.consequent.var == v.name then
            List.zipWith max acc (v.univ.map (ruleClip reg inputs v r))
          else acc)
        (v.univ.map h) =
      v.univ.map (fun x =>
        ((rules.filter (fun r => r.consequent.var == v.name)).map
          (fun r => ruleClip reg inputs v r x)).foldr max (h x)) := by
  induction rules with
  | nil => intro h; rfl
  | cons r rs ih =>
    intro h
    rw [List.foldl_cons]
    by_cases hp : r.consequent.var == v.name
    · have hf : (r :: rs).filter (fun q => q.consequent.var == v.name) =
          r :: rs.filter (fun q => q.consequent.var == v.name) := by
        simp [List.filter_cons, hp]
      rw [if_pos hp, List.zipWith_map, List.zipWith_same,
        ih (fun x => max (h x) (ruleClip reg inputs v r x)), hf]
      refine congrArg (fun f => v.univ.map f) (funext fun x => ?_)
      calc ((rs.filter (fun q => q.consequent.var == v.name)).map
              (fun q => ruleClip reg inputs v q x)).foldr max
              (max (h x) (ruleClip reg inputs v r x))
          = max (ruleClip reg inputs v r x)
              (((rs.filter (fun q => q.consequent.var == v.name)).map
                (fun q => ruleClip reg inputs v q x)).foldr max (h x)) :=
            foldr_max_shift _ _ _
        _ = ((r :: rs.filter (fun q => q.consequent.var == v.name)).map
              (fun q => ruleClip reg inputs v q x)).foldr max (h x) := rfl
    · have hf : (r :: rs).filter (fun q => q.consequent.var == v.name) =
          rs.filter (fun q => q.consequent.var == v.name) := by
        simp [List.filter_cons, hp]
      rw [if_neg hp, ih h, hf]

/-- **C1**: for every output variable and every sample point of its
universe, the aggregated membership produced by the evaluation loop equals
the pointwise maximum, over all rules whose consequent targets that
variable, of the pointwise minimum of the consequent term's shape and the
rule's firing strength; and when zero rules fire for the variable (in
particular when no rule targets it), the aggregate is uniformly 0. -/
theorem evalAgg_spec (reg : Registry) (inputs : String → ℚ)
    (rules : List Rule) (v : LinguisticVariable)
    (hv : reg.valid) (hout : v ∈ reg.outputs) :
    evalAgg reg inputs rules v = v.univ.map (aggFormula reg inputs rules v) ∧
    ((∀ r ∈ rules, r.consequent.var = v.name → r.firing reg inputs = 0) →
      evalAgg reg inputs rules v = v.univ.map (fun _ => 0)) := by
  have hbridge := evalAgg_foldl_eq reg inputs v rules (fun _ => 0)
  constructor
  · exact hbridge
  · intro hz
    have hform : ∀ x : ℚ, aggFormula reg inputs rules v x = 0 := by
      intro x
      apply foldr_max_zero_of_all_zero
      intro m hm
      obtain ⟨r, hr, rfl⟩ := List.mem_map.1 hm
      obtain ⟨hrmem, hrtar⟩ := List.mem_filter.1 hr
      have htar : r.consequent.var = v.name := by
        exact eq_of_beq hrtar
      have hfire : r.firing reg inputs = 0 := hz r hrmem htar
      unfold ruleClip
      cases hs : v.shape r.consequent.term with
      | none => rfl
      | some t =>
        have hvalid : t.valid :=
          shape_valid reg v hv (List.mem_append_right _ hout) _ t hs
        rw [hfire]
        exact min_eq_right (trimf_nonneg t hvalid x)
    have h1 : evalAgg reg inputs rules v =
        v.univ.map (aggFormula reg inputs rules v) := hbridge
    rw [h1]
    exact congrArg (fun f => v.univ.map f) (funext hform)

/-- Witness for C1: the nine-rule system at the all-fired input assignment,
and the uniformly-zero conclusion at the gap assignment where every rule's
firing strength is 0. -/
theorem evalAgg_spec_witness :
    evalAgg depressionReg firedInputs depressionRules riskVar =
      riskVar.univ.map (aggFormula depressionReg firedInputs depressionRules riskVar) ∧
    evalAgg depressionReg gapInputs depressionRules riskVar =
      riskVar.univ.map (fun _ => 0) :=
  ⟨(evalAgg_spec depressionReg firedInputs depressionRules riskVar
      (by decide) (by decide)).1,
   (evalAgg_spec depressionReg gapInputs depressionRules riskVar
      (by decide) (by decide)).2 (by decide)⟩

/-- **C7**: for every registry, crisp input assignment and output
variable, evaluating the rules in any permuted order yields identical
aggregated membership arrays — aggregation by max is commutative and
associative, and each rule is included exactly once on both sides. -/
theorem evalAgg_perm (reg : Registry) (inputs : String → ℚ)
    (rules₁ rules₂ : List Rule) (v : LinguisticVariable)
    (hperm : rules₁.Perm rules₂) :
    evalAgg reg inputs rules₁ v = evalAgg reg inputs rules₂ v := by
  have h1 : evalAgg reg inputs rules₁ v =
      v.univ.map (aggFormula reg inputs rules₁ v) :=
    evalAgg_foldl_eq reg inputs v rules₁ (fun _ => 0)
  have h2 : evalAgg reg inputs rules₂ v =
      v.univ.map (aggFormula reg inputs rules₂ v) :=
    evalAgg_foldl_eq reg inputs v rules₂ (fun _ => 0)
  rw [h1, h2]
  refine congrArg (fun f => v.univ.map f) (funext fun x => ?_)
  exact foldr_max_perm _ _
    (((hperm.filter (fun r => r.consequent.var == v.name)).map
      (fun r => ruleClip reg inputs v r x))) 0

/-- Witness for C7: swapping two rules of the source's rule base leaves
the aggregated membership array unchanged. -/
theorem evalAgg_perm_witness :
    evalAgg depressionReg firedInputs
      [{ antecedents := [⟨"mood", "low"⟩, ⟨"social", "low"⟩],
         consequent := ⟨"risk", "high"⟩ },
       { antecedents := [⟨"energy", "low"⟩, ⟨"appetite", "decreased"⟩],
         consequent := ⟨"risk", "high"⟩ }] riskVar =
    evalAgg depressionReg firedInputs
      [{ antecedents := [⟨"energy", "low"⟩, ⟨"appetite", "decreased"⟩],
         consequent := ⟨"risk", "high"⟩ },
       { antecedents := [⟨"mood", "low"⟩, ⟨"social", "low"⟩],
         consequent := ⟨"risk", "high"⟩ }] riskVar :=
  evalAgg_perm depressionReg firedInputs _ _ riskVar (List.Perm.swap _ _ [])

/-! ## Firing strength -/

theorem clauseDegree_bounds (reg : Registry) (inputs : String → ℚ) (c : Clause)
    (hv : reg.valid) :
    0 ≤ reg.clauseDegree inputs c ∧ reg.clauseDegree inputs c ≤ 1 := by
  rcases hf : reg.findInput c.var with - | v
  · simp [Registry.clauseDegree, hf]
  · rcases hs : v.shape c.term with - | t
    · simp [Registry.clauseDegree, hf, hs]
    · have hvin : v ∈ reg.inputs := by
        unfold Registry.findInput at hf
        exact List.mem_of_find?_eq_some hf
      have hvalid : t.valid :=
        shape_valid reg v hv (List.mem_append_left _ hvin) _ t hs
      have hd : reg.clauseDegree inputs c = trimf t (inputs c.var) := by
        simp [Registry.clauseDegree, hf, hs]
      rw [hd]
      exact ⟨trimf_nonneg t hvalid _, trimf_le_one t hvalid _⟩

/-- **C2**: for every rule of a validated registry and every crisp input
assignment, the firing strength equals the rule's weight times the minimum
of the membership degrees of its antecedent clauses (here for a rule with
antecedents c :: cs, the min over that nonempty list written as a fold of
min started at the head's degree), and the firing strength lies in
[0, weight] whenever the weight is non-negative. -/
theorem firing_spec (reg : Registry) (inputs : String → ℚ) (r : Rule)
    (hv : reg.valid) (hw : 0 ≤ r.weight) (c : Clause) (cs : List Clause)
    (hr : r.antecedents = c :: cs) :
    r.firing reg inputs =
      r.weight * ((cs.map (reg.clauseDegree inputs)).foldr min
        (reg.clauseDegree inputs c)) ∧
    0 ≤ r.firing reg inputs ∧ r.firing reg inputs ≤ r.weight := by
  have hb : ∀ q : Clause,
      0 ≤ reg.clauseDegree inputs q ∧ reg.clauseDegree inputs q ≤ 1 :=
    fun q => clauseDegree_bounds reg inputs q hv
  refine ⟨?_, ?_, ?_⟩
  · unfold Rule.firing
    rw [hr, List.map_cons, List.foldr_cons]
    congr 1
    exact foldr_min_shift (cs.map (reg.clauseDegree inputs)) _ (hb c).2
      (fun y hy => by obtain ⟨q, _, rfl⟩ := List.mem_map.1 hy; exact (hb q).2)
  · unfold Rule.firing
    exact mul_nonneg hw (foldr_min_nonneg _
      (fun y hy => by obtain ⟨q, _, rfl⟩ := List.mem_map.1 hy; exact (hb q).1))
  · unfold Rule.firing
    calc r.weight * ((r.antecedents.map (reg.clauseDegree inputs)).foldr min 1)
        ≤ r.weight * 1 :=
          mul_le_mul_of_nonneg_left (foldr_min_le_one _) hw
      _ = r.weight := mul_one _

/-- Witness for C2: the first rule of the source's rule base at the
assignment mood=0, energy=0, appetite=-5, social=0 (all clause degrees 1,
default weight 1). -/
theorem firing_spec_witness :
    Rule.firing depressionReg firedInputs
        { antecedents := [⟨"mood", "low"⟩, ⟨"energy", "low"⟩, ⟨"social", "low"⟩],
          consequent := ⟨"risk", "high"⟩ } =
      1 * (([(⟨"energy", "low"⟩ : Clause), ⟨"social", "low"⟩].map
          (depressionReg.clauseDegree firedInputs)).foldr min
          (depressionReg.clauseDegree firedInputs ⟨"mood", "low"⟩)) ∧
    0 ≤ Rule.firing depressionReg firedInputs
        { antecedents := [⟨"mood", "low"⟩, ⟨"energy", "low"⟩, ⟨"social", "low"⟩],
          consequent := ⟨"risk", "high"⟩ } ∧
    Rule.firing depressionReg firedInputs
        { antecedents := [⟨"mood", "low"⟩, ⟨"energy", "low"⟩, ⟨"social", "low"⟩],
          consequent := ⟨"risk", "high"⟩ } ≤ 1 :=
  firing_spec depressionReg firedInputs _ (by decide) (by norm_num)
    ⟨"mood", "low"⟩ [⟨"energy", "low"⟩, ⟨"social", "low"⟩] rfl

/-! ## Defuzzification -/

theorem defuzz_foldl_snd (l : List (ℚ × ℚ)) (h : ∀ q ∈ l, q.2 = 0) :
    ∀ acc : ℚ × ℚ, (l.foldl defuzzStep acc).2 = acc.2 := by
  induction l with
  | nil => intro acc; rfl
  | cons q qs ih =>
    intro acc
    rw [List.foldl_cons, ih (fun p hp => h p (List.mem_cons_of_mem q hp))]
    have hq : q.2 = 0 := h q (List.mem_cons_self q qs)
    simp [defuzzStep, hq]

/-- **C4**: whenever the aggregated output membership is uniformly 0 (in
particular when no rule fired for the output variable), defuzzification
fails with `EmptyAggregateError` — it returns no crisp value at all, so
any fallback is necessarily the caller's decision. -/
theorem defuzzify_empty (xs mu : List ℚ) (h : ∀ m ∈ mu, m = 0) :
    defuzzify xs mu = .error .emptyAggregate := by
  have hz : (defuzzPass (List.zip xs mu)).2 = 0 := by
    unfold defuzzPass
    rw [defuzz_foldl_snd]
    intro q hq
    obtain ⟨a, b⟩ := q
    exact h b (List.of_mem_zip hq).2
  unfold defuzzify
  rw [if_pos hz]

/-- Witness for C4: a three-point universe with the all-zero aggregate. -/
theorem defuzzify_empty_witness :
    defuzzify [1, 2, 3] [0, 0, 0] = .error .emptyAggregate :=
  defuzzify_empty [1, 2, 3] [0, 0, 0] (by decide)

theorem defuzz_foldl_eq (l : List (ℚ × ℚ)) :
    ∀ acc : ℚ × ℚ,
      l.foldl defuzzStep acc =
        (acc.1 + (l.map (fun q => q.1 * q.2)).sum, acc.2 + (l.map Prod.snd).sum) := by
  induction l with
  | nil => intro acc; simp
  | cons q qs ih =>
    intro acc
    rw [List.foldl_cons, ih]
    unfold defuzzStep
    simp only [List.map_cons, List.sum_cons]
    rw [Prod.mk.injEq]
    constructor <;> ring

theorem map_mul_zip (xs mu : List ℚ) :
    (List.zip xs mu).map (fun q => q.1 * q.2) = List.zipWith (· * ·) xs mu := by
  induction xs generalizing mu with
  | nil => simp
  | cons x xs ih =>
    cases mu with
    | nil => simp
    | cons m ms => simp [List.zip_cons_cons, ih]

theorem defuzzPass_eq (xs mu : List ℚ) (hlen : xs.length = mu.length) :
    defuzzPass (List.zip xs mu) = ((List.zipWith (· * ·) xs mu).sum, mu.sum) := by
  unfold defuzzPass
  rw [defuzz_foldl_eq, map_mul_zip,
    List.map_snd_zip xs mu (le_of_eq hlen.symm)]
  simp

/-- **C6**: for every universe and aggregated membership list of the same
length with non-zero total, `defuzzify` returns the centroid of area: the
ratio of the sum of x·μ(x) to the sum of μ(x) over the sample points. -/
theorem defuzzify_centroid (xs mu : List ℚ) (hlen : xs.length = mu.length)
    (hne : mu.sum ≠ 0) :
    defuzzify xs mu = .ok ((List.zipWith (· * ·) xs mu).sum / mu.sum) := by
  unfold defuzzify
  rw [defuzzPass_eq xs mu hlen]
  exact if_neg hne

/-- Witness for C6: a three-point universe, centroid (0·0 + 1·1 + 2·1)/2. -/
theorem defuzzify_centroid_witness :
    defuzzify [0, 1, 2] [0, 1, 1] =
      .ok ((List.zipWith (· * ·) [0, 1, 2] [(0 : ℚ), 1, 1]).sum /
        ([(0 : ℚ), 1, 1]).sum) :=
  defuzzify_centroid [0, 1, 2] [0, 1, 1] (by decide) (by decide)

theorem defuzz_foldl_inv (lo hi : ℚ) (l : List (ℚ × ℚ))
    (hl : ∀ q ∈ l, (lo ≤ q.1 ∧ q.1 ≤ hi) ∧ 0 ≤ q.2) :
    ∀ acc : ℚ × ℚ, 0 ≤ acc.2 → lo * acc.2 ≤ acc.1 → acc.1 ≤ hi * acc.2 →
      0 ≤ (l.foldl defuzzStep acc).2 ∧
      lo * (l.foldl defuzzStep acc).2 ≤ (l.foldl defuzzStep acc).1 ∧
      (l.foldl defuzzStep acc).1 ≤ hi * (l.foldl defuzzStep acc).2 := by
  induction l with
  | nil => intro acc h0 h1 h2; exact ⟨h0, h1, h2⟩
  | cons q qs ih =>
    intro acc h0 h1 h2
    obtain ⟨⟨hqlo, hqhi⟩, hq2⟩ := hl q (List.mem_cons_self q qs)
    have hlo : lo * q.2 ≤ q.1 * q.2 := mul_le_mul_of_nonneg_right hqlo hq2
    have hhi : q.1 * q.2 ≤ hi * q.2 := mul_le_mul_of_nonneg_right hqhi hq2
    rw [List.foldl_cons]
    refine ih (fun p hp => hl p (List.mem_cons_of_mem q hp)) (defuzzStep acc q)
      ?_ ?_ ?_
    · unfold defuzzStep; dsimp only; linarith
    · unfold defuzzStep; dsimp only; nlinarith [h1, hlo]
    · unfold defuzzStep; dsimp only; nlinarith [h2, hhi]

theorem defuzzify_bounds (xs mu : List ℚ) (lo hi : ℚ)
    (hx : ∀ x ∈ xs, lo ≤ x ∧ x ≤ hi) (hmu : ∀ m ∈ mu, 0 ≤ m)
    (y : ℚ) (h : defuzzify xs mu = .ok y) : lo ≤ y ∧ y ≤ hi := by
  have hl : ∀ q ∈ List.zip xs mu, (lo ≤ q.1 ∧ q.1 ≤ hi) ∧ 0 ≤ q.2 := by
    intro q hq
    obtain ⟨a, b⟩ := q
    obtain ⟨ha, hb⟩ := List.of_mem_zip hq
    exact ⟨hx a ha, hmu b hb⟩
  have hinv := defuzz_foldl_inv lo hi _ hl ((0 : ℚ), (0 : ℚ))
    (le_refl 0) (by simp) (by simp)
  unfold defuzzify at h
  by_cases hz : (defuzzPass (List.zip xs mu)).2 = 0
  · rw [if_pos hz] at h; cases h
  · rw [if_neg hz] at h
    have hy : y = (defuzzPass (List.zip xs mu)).1 /
        (defuzzPass (List.zip xs mu)).2 := by
      cases h; rfl
    have hinv' : 0 ≤ (defuzzPass (List.zip xs mu)).2 ∧
        lo * (defuzzPass (List.zip xs mu)).2 ≤ (defuzzPass (List.zip xs mu)).1 ∧
        (defuzzPass (List.zip xs mu)).1 ≤ hi * (defuzzPass (List.zip xs mu)).2 :=
      hinv
    have hpos : 0 < (defuzzPass (List.zip xs mu)).2 :=
      lt_of_le_of_ne hinv'.1 (Ne.symm hz)
    constructor
    · rw [hy, le_div_iff₀ hpos]
      exact hinv'.2.1
    · rw [hy, div_le_iff₀ hpos]
      exact hinv'.2.2

theorem zipWith_max_nonneg (a : List ℚ) (ha : ∀ x ∈ a, 0 ≤ x) :
    ∀ (b : List ℚ), ∀ x ∈ List.zipWith max a b, 0 ≤ x := by
  induction a with
  | nil => intro b x hx; simp at hx
  | cons p ps ih =>
    intro b x hx
    cases b with
    | nil => simp at hx
    | cons q qs =>
      rw [List.zipWith_cons_cons] at hx
      rcases List.mem_cons.1 hx with rfl | hx'
      · exact le_trans (ha p (List.mem_cons_self p ps)) (le_max_left p q)
      · exact ih (fun z hz => ha z (List.mem_cons_of_mem p hz)) qs x hx'

theorem evalAgg_nonneg (reg : Registry) (inputs : String → ℚ)
    (rules : List Rule) (v : LinguisticVariable) :
    ∀ m ∈ evalAgg reg inputs rules v, 0 ≤ m := by
  suffices hgen : ∀ (rs : List Rule) (acc : List ℚ), (∀ m ∈ acc, 0 ≤ m) →
      ∀ m ∈ rs.foldl
        (fun acc r =>
          if r.consequent.var == v.name then
            List.zipWith max acc (v.univ.map (ruleClip reg inputs v r))
          else acc) acc, 0 ≤ m by
    refine hgen rules (v.univ.map (fun _ => 0)) ?_
    intro m hm
    obtain ⟨x, -, rfl⟩ := List.mem_map.1 hm
    exact le_refl 0
  intro rs
  induction rs with
  | nil => intro acc hacc; exact hacc
  | cons r rest ih =>
    intro acc hacc
    rw [List.foldl_cons]
    by_cases hp : r.consequent.var == v.name
    · rw [if_pos hp]
      exact ih _ (zipWith_max_nonneg acc hacc _)
    · rw [if_neg hp]
      exact ih _ hacc

set_option maxRecDepth 40000 in
/-- **C10**: whenever the inference pipeline of the depression-risk system
produces a crisp risk score, that score lies within the output universe
bounds [0, 100] — the centroid of a non-negative membership function
sampled over [0, 100] cannot fall outside the interval. -/
theorem depressionScore_in_range (inputs : String → ℚ) (y : ℚ)
    (h : depressionScore inputs = .ok y) : 0 ≤ y ∧ y ≤ 100 := by
  unfold depressionScore at h
  refine defuzzify_bounds riskVar.univ _ 0 100 ?_ ?_ y h
  · exact fun x hx => (by decide : ∀ x ∈ riskVar.univ, 0 ≤ x ∧ x ≤ 100) x hx
  · exact fun m hm =>
      evalAgg_nonneg depressionReg inputs depressionRules riskVar m hm

set_option maxRecDepth 1000000 in
/-- Witness for C10: the assignment mood=0, energy=0, appetite=-5,
social=0 yields the crisp score 87, which the theorem places in [0, 100]. -/
theorem depressionScore_in_range_witness :
    depressionScore firedInputs = .ok 87 ∧ (0 ≤ (87 : ℚ) ∧ (87 : ℚ) ≤ 100) :=
  ⟨by decide, depressionScore_in_range firedInputs 87 (by decide)⟩

set_option maxRecDepth 1000000 in
/-- **C5**: the spec's end-to-end reference instance — input "mood" over
[0,10] with the source's three terms, output "risk" over [0,100] with the
source's three terms, and the single rule mood=low → risk=high.  Input
mood=0 yields the crisp score 87, inside the expected 70-90 neighborhood;
input mood=10 gives zero firing strength, so defuzzification fails with
`EmptyAggregateError`. -/
theorem reference_scenario :
    defuzzify riskVar.univ (evalAgg refReg (fun _ => 0) [refRule] riskVar) =
      .ok 87 ∧
    ((70 : ℚ) ≤ 87 ∧ (87 : ℚ) ≤ 90) ∧
    defuzzify riskVar.univ (evalAgg refReg (fun _ => 10) [refRule] riskVar) =
      .error .emptyAggregate := by
  refine ⟨by decide, by norm_num, by decide⟩

set_option maxRecDepth 1000000 in
/-- **C9**: the assignment mood=10, energy=0, appetite=5, social=10 lies
inside every declared universe, yet every one of the nine rules has firing
strength 0, so the aggregate for "risk" is uniformly zero and no crisp
output is produced. -/
theorem rule_gap :
    ((10 : ℚ) ∈ moodVar.univ ∧ (0 : ℚ) ∈ energyVar.univ ∧
      (5 : ℚ) ∈ appetiteVar.univ ∧ (10 : ℚ) ∈ socialVar.univ) ∧
    depressionRules.map (fun r => r.firing depressionReg gapInputs) =
      [0, 0, 0, 0, 0, 0, 0, 0, 0] ∧
    evalAgg depressionReg gapInputs depressionRules riskVar =
      riskVar.univ.map (fun _ => 0) ∧
    depressionScore gapInputs = .error .emptyAggregate := by
  refine ⟨by decide, by decide, by decide, by decide⟩

/-- **C8**: the computation is deterministic and carries no state across
calls — the stored output of a compute pass depends only on the registry,
rule base and crisp inputs (not on any previously cached output), and
computing twice in a row with unchanged inputs stores the identical
output. -/
theorem compute_deterministic (s₁ s₂ : Simulation) (v : LinguisticVariable)
    (hreg : s₁.reg = s₂.reg) (hrules : s₁.rules = s₂.rules)
    (hin : s₁.inputVals = s₂.inputVals) :
    (s₁.compute v).output = (s₂.compute v).output ∧
    ((s₁.compute v).compute v).output = (s₁.compute v).output := by
  unfold Simulation.compute
  rw [hreg, hrules, hin]
  exact ⟨rfl, rfl⟩

/-- Witness for C8: two contexts over the source's configuration that
differ only in their cached output slot compute the same output, and a
repeated compute is stable. -/
theorem compute_deterministic_witness :
    ((Simulation.mk depressionReg depressionRules firedInputs none).compute
        riskVar).output =
      ((Simulation.mk depressionReg depressionRules firedInputs
        (some (.error .emptyAggregate))).compute riskVar).output ∧
    (((Simulation.mk depressionReg depressionRules firedInputs none).compute
        riskVar).compute riskVar).output =
      ((Simulation.mk depressionReg depressionRules firedInputs none).compute
        riskVar).output :=
  compute_deterministic _ _ riskVar rfl rfl rfl
